import Mathlib

/-!
The program buggyLinkedList.cpp: a singly linked list on a manually managed heap.

Shallow embedding of `src/buggyLinkedList.cpp`.

* A `Node*` is an `Option Nat`: `none` is `nullptr`, `some a` is the address of
  cell `a` of the node store.
* The node store is a list of cells; a cell is `some n` while the node is live
  and `none` once it has been `delete`d.  `new Node` takes the next unused
  address (the length of the store).
* The `LinkedList` record allocated by `new LinkedList` is the `list` field of
  the memory: `some l` while live, `none` before allocation and after
  `delete list`.
* Every function is written in state-passing style: it takes the memory and
  returns either a fault or its result together with the memory it leaves.
* `int` values are modelled by `Int`; the program does no arithmetic on them.
-/

namespace BuggyLinkedList

/-- The `struct Node` of the source: `int data; Node* next = nullptr;`. -/
structure Node where
  data : Int
  next : Option Nat := none
  deriving DecidableEq, Repr

/-- The `struct LinkedList` of the source: both pointers default to `nullptr`. -/
structure LinkedList where
  head : Option Nat := none
  tail : Option Nat := none
  deriving DecidableEq, Repr

/-- Abnormal outcomes of running the code. -/
inductive Fault where
  /-- A member access through `nullptr`. -/
  | nullDeref
  /-- A member access or `delete` through a pointer to no live object. -/
  | invalidPointer
  /-- The loop did not finish within the steps granted (a cyclic chain). -/
  | outOfFuel
  deriving DecidableEq, Repr

/-- The memory the program works on: node store and the list record. -/
structure Mem where
  nodes : List (Option Node) := []
  list : Option LinkedList := none
  deriving DecidableEq, Repr

/-- Events of `freeLinkedList`, in program order. -/
inductive Event where
  | readNext (a : Nat)
  | deleteNode (a : Nat)
  | deleteList
  deriving DecidableEq, Repr

deriving instance DecidableEq for Except

/-! Memory primitives -/

/-- Dereference of a `Node*` for a member access: faults on `nullptr`. -/
def derefPtr (p : Option Nat) : Except Fault Nat :=
  match p with
  | none => .error .nullDeref
  | some a => .ok a

/-- Read of the node at address `a`. -/
def loadNode (m : Mem) (a : Nat) : Except Fault Node :=
  match m.nodes[a]? with
  | some (some n) => .ok n
  | _ => .error .invalidPointer

/-- Write of the node at address `a`, which must be live. -/
def storeNode (m : Mem) (a : Nat) (n : Node) : Except Fault Mem :=
  match m.nodes[a]? with
  | some (some _) => .ok { m with nodes := m.nodes.set a (some n) }
  | _ => .error .invalidPointer

/-- Allocation `new Node{..}`: the new cell goes at the end of the store. -/
def newNode (m : Mem) (n : Node) : Nat × Mem :=
  (m.nodes.length, { m with nodes := m.nodes ++ [some n] })

/-- Release `delete p` of a node. -/
def deleteNode (m : Mem) (a : Nat) : Except Fault Mem :=
  match m.nodes[a]? with
  | some (some _) => .ok { m with nodes := m.nodes.set a none }
  | _ => .error .invalidPointer

/-- Read of the list record through `list->`. -/
def loadList (m : Mem) : Except Fault LinkedList :=
  match m.list with
  | some l => .ok l
  | none => .error .invalidPointer

/-- Write of the list record through `list->`. -/
def storeList (m : Mem) (l : LinkedList) : Except Fault Mem :=
  match m.list with
  | some _ => .ok { m with list := some l }
  | none => .error .invalidPointer

/-- Allocation `new LinkedList`: a record with `head = tail = nullptr`. -/
def newLinkedList (m : Mem) : Mem :=
  { m with list := some {} }

/-- Release `delete list` of the list record. -/
def deleteList (m : Mem) : Except Fault Mem :=
  match m.list with
  | some _ => .ok { m with list := none }
  | none => .error .invalidPointer

/-! The functions of the source -/

/-- The `std::to_string(int)` of the C++ library: signed decimal. -/
def to_string (v : Int) : String :=
  match v with
  | Int.ofNat n => Nat.repr n
  | Int.negSucc n => "-" ++ Nat.repr (n + 1)

/-- The `for` loop of `linkedListToString`, lines 26-28, with `p` the loop
variable and `result` the accumulator. -/
def toStringLoop : Nat → Option Nat → String → Mem → Except Fault (String × Mem)
  | 0, _, _, _ => .error .outOfFuel
  | _ + 1, none, result, m => .ok (result, m)
  | fuel + 1, some a, result, m => do
      let n ← loadNode m a
      toStringLoop fuel n.next (result ++ ("[" ++ to_string n.data ++ "]->")) m

/-- The function `linkedListToString`, lines 24-31.  The loop is granted one
step more than there are cells in the store, which is enough for every chain
that ends in `nullptr`. -/
def linkedListToString (m : Mem) : Except Fault (String × Mem) := do
  let result := ""
  let l ← loadList m
  let (result, m) ← toStringLoop (m.nodes.length + 1) l.head result m
  let result := result ++ "null"
  pure (result, m)

/-- The `for` loop of `freeLinkedList`, lines 38-41. -/
def freeLoop : Nat → Option Nat → List Event → Mem → Except Fault (List Event × Mem)
  | 0, _, _, _ => .error .outOfFuel
  | _ + 1, none, log, m => .ok (log, m)
  | fuel + 1, some a, log, m => do
      let n ← loadNode m a
      let next := n.next
      let m ← deleteNode m a
      freeLoop fuel next (log ++ [Event.readNext a, Event.deleteNode a]) m

/-- The function `freeLinkedList`, lines 36-43; the value returned is the log
of reads of `next` and releases, in the order they happen. -/
def freeLinkedList (m : Mem) : Except Fault (List Event × Mem) := do
  let l ← loadList m
  let (log, m) ← freeLoop (m.nodes.length + 1) l.head [] m
  let m ← deleteList m
  pure (log ++ [Event.deleteList], m)

/-- The function `addIntToEndOfList`, lines 45-49. -/
def addIntToEndOfList (m : Mem) (value : Int) : Except Fault (Unit × Mem) := do
  -- Node* p = new Node{value, nullptr};
  let (p, m) := newNode m { data := value, next := none }
  -- list->tail->next = p;
  let l ← loadList m
  let t ← derefPtr l.tail
  let n ← loadNode m t
  let m ← storeNode m t { n with next := some p }
  -- list->tail = p;
  let l ← loadList m
  let m ← storeList m { l with tail := some p }
  pure ((), m)

/-- What a run of the program leaves behind: the text written to `cout` and
either the fault that stopped it or the exit code. -/
structure ProgramRun where
  stdout : String
  outcome : Except Fault Nat
  deriving DecidableEq, Repr

/-- The function `main`, lines 51-70, started on empty memory. -/
def main : ProgramRun :=
  let out := ""
  -- LinkedList* list = new LinkedList;
  let m := newLinkedList {}
  -- cout << "BEFORE: " << linkedListToString(list) << endl;
  match linkedListToString m with
  | .error f => ⟨out, .error f⟩
  | .ok (s, m) =>
  let out := out ++ "BEFORE: " ++ s ++ "\n"
  match addIntToEndOfList m 1 with
  | .error f => ⟨out, .error f⟩
  | .ok (_, m) =>
  match addIntToEndOfList m 2 with
  | .error f => ⟨out, .error f⟩
  | .ok (_, m) =>
  match addIntToEndOfList m 3 with
  | .error f => ⟨out, .error f⟩
  | .ok (_, m) =>
  -- cout << "AFTER: " << linkedListToString(list) << endl;
  match linkedListToString m with
  | .error f => ⟨out, .error f⟩
  | .ok (s, m) =>
  let out := out ++ "AFTER: " ++ s ++ "\n"
  -- freeLinkedList(list);
  match freeLinkedList m with
  | .error f => ⟨out, .error f⟩
  | .ok _ => ⟨out, .ok 0⟩

/-- A run of `addIntToEndOfList` for each value of a sequence, in order,
stopping at the first fault. -/
def appendAll (m : Mem) : List Int → Except Fault Mem
  | [] => .ok m
  | v :: vs => do
      let (_, m) ← addIntToEndOfList m v
      appendAll m vs

/-! Specification vocabulary -/

/-- The text `"[v1]->[v2]->...->[vn]->null"` of a sequence of values. -/
def renderValues : List Int → String
  | [] => "null"
  | v :: vs => "[" ++ to_string v ++ "]->" ++ renderValues vs

/-- `Chain nodes p cs`: following `next` from `p` visits exactly the live
cells `cs` (address and content, in traversal order) and then reaches
`nullptr`. -/
inductive Chain (nodes : List (Option Node)) : Option Nat → List (Nat × Node) → Prop
  | nil : Chain nodes none []
  | cons {a : Nat} {n : Node} {cs : List (Nat × Node)} :
      nodes[a]? = some (some n) → Chain nodes n.next cs → Chain nodes (some a) ((a, n) :: cs)

/-- The invariants of the data model: the list record is live, the chain from
`head` is finite with cells `cs`; `head` is absent iff `tail` is absent iff the
chain is empty; and when it is not empty, `tail` is a cell of the chain whose
`next` is absent. -/
def DataModelInv (m : Mem) (l : LinkedList) (cs : List (Nat × Node)) : Prop :=
  m.list = some l ∧ Chain m.nodes l.head cs ∧
  (l.head = none ↔ l.tail = none) ∧ (l.tail = none ↔ cs = []) ∧
  (cs ≠ [] → ∃ t n, l.tail = some t ∧ (t, n) ∈ cs ∧ n.next = none)

/-- The memory right after `new LinkedList` on an empty store. -/
def fresh : Mem := newLinkedList {}

/-- A memory holding the list `1 -> 2`: cell 0 is the head, cell 1 the tail. -/
def twoNodes : Mem :=
  { nodes := [some (Node.mk 1 (some 1)), some (Node.mk 2 none)],
    list := some { head := some 0, tail := some 1 } }

/-- The releases `freeLinkedList` is to perform on a chain with addresses
`as`: for each node in traversal order its `next` is read and then the node is
released; the list record is released after all of them. -/
def releaseLog : List Nat → List Event
  | [] => [Event.deleteList]
  | a :: as => Event.readNext a :: Event.deleteNode a :: releaseLog as

/-- The store after the release of the cells at the addresses `as`. -/
def releaseCells (nodes : List (Option Node)) : List Nat → List (Option Node)
  | [] => nodes
  | a :: as => releaseCells (nodes.set a none) as

/-- The value of a decimal digit character. -/
def digitValue (c : Char) : Nat := c.toNat - 48

/-- The number written by a list of decimal digits, most significant first. -/
def decimalValue (ds : List Char) : Nat :=
  ds.foldl (fun acc c => 10 * acc + digitValue c) 0

/-- The integer written in signed decimal by a list of characters: the reading
back of what `to_string` writes. -/
def parseInt : List Char → Int
  | '-' :: ds => -((decimalValue ds : Nat) : Int)
  | ds => ((decimalValue ds : Nat) : Int)

/-! Lemmas -/

theorem bind_ok_eq {α β : Type} (x : α) (f : α → Except Fault β) :
    ((Except.ok x : Except Fault α) >>= f) = f x := rfl

theorem bind_error_eq {α β : Type} (e : Fault) (f : α → Except Fault β) :
    ((Except.error e : Except Fault α) >>= f) = Except.error e := rfl

theorem loadNode_eq {m : Mem} {a : Nat} {n : Node} (h : m.nodes[a]? = some (some n)) :
    loadNode m a = .ok n := by
  simp [loadNode, h]

/-- The loop of `linkedListToString` on a chain: with more steps than cells it
returns the accumulator extended by the cells in order, memory untouched. -/
theorem toStringLoop_chain {m : Mem} {p : Option Nat} {cs : List (Nat × Node)}
    (hc : Chain m.nodes p cs) :
    ∀ (fuel : Nat) (acc : String), cs.length < fuel →
      toStringLoop fuel p acc m =
        .ok (cs.foldl (fun r c => r ++ ("[" ++ to_string c.2.data ++ "]->")) acc, m) := by
  induction hc with
  | nil =>
    intro fuel acc hf
    cases fuel with
    | zero => simp at hf
    | succ k => simp [toStringLoop]
  | cons ha _ ih =>
    intro fuel acc hf
    cases fuel with
    | zero => simp at hf
    | succ k =>
      simp only [toStringLoop, loadNode_eq ha, bind_ok_eq]
      rw [ih k _ (by simpa using hf)]
      simp

/-- The text accumulated by the loop, closed by `"null"`, is the rendering of
the values of the cells put after the accumulator. -/
theorem foldl_render (cs : List (Nat × Node)) :
    ∀ acc : String,
      cs.foldl (fun r c => r ++ ("[" ++ to_string c.2.data ++ "]->")) acc ++ "null" =
        acc ++ renderValues (cs.map (fun c => c.2.data)) := by
  induction cs with
  | nil => intro acc; rfl
  | cons c cs ih =>
    intro acc
    rw [List.foldl_cons, ih]
    simp only [List.map_cons, renderValues, String.append_assoc]

/-- The chain without cells starts at `nullptr`. -/
theorem Chain.eq_none_of_nil {nodes : List (Option Node)} {p : Option Nat}
    (hc : Chain nodes p []) : p = none := by
  cases hc
  rfl

/-- A chain is determined by the store and its starting pointer. -/
theorem Chain.functional {nodes : List (Option Node)} {p : Option Nat}
    {cs : List (Nat × Node)} (hc : Chain nodes p cs) :
    ∀ {cs' : List (Nat × Node)}, Chain nodes p cs' → cs = cs' := by
  induction hc with
  | nil => intro cs' h; cases h; rfl
  | cons ha _ ih =>
    intro cs' h
    cases h with
    | cons ha' hc' =>
      rw [ha] at ha'
      cases ha'
      rw [ih hc']

/-- Every cell of a chain starts a chain of its own, no longer than the whole. -/
theorem Chain.from_mem {nodes : List (Option Node)} {p : Option Nat}
    {cs : List (Nat × Node)} (hc : Chain nodes p cs) :
    ∀ {a : Nat} {n : Node}, (a, n) ∈ cs →
      ∃ cs', Chain nodes (some a) cs' ∧ cs'.length ≤ cs.length := by
  induction hc with
  | nil => intro a n h; simp at h
  | @cons b k cs0 hb hc0 ih =>
    intro a n h
    rcases List.mem_cons.mp h with h | h
    · cases h
      exact ⟨(b, k) :: cs0, Chain.cons hb hc0, le_refl _⟩
    · obtain ⟨cs', h1, h2⟩ := ih h
      exact ⟨cs', h1, by simp; omega⟩

/-- Every cell of a chain is a live cell of the store. -/
theorem Chain.mem_live {nodes : List (Option Node)} {p : Option Nat}
    {cs : List (Nat × Node)} (hc : Chain nodes p cs) :
    ∀ {a : Nat} {n : Node}, (a, n) ∈ cs → nodes[a]? = some (some n) := by
  induction hc with
  | nil => intro a n h; simp at h
  | cons hb _ ih =>
    intro a n h
    rcases List.mem_cons.mp h with h | h
    · cases h; exact hb
    · exact ih h

/-- No address occurs twice in a chain. -/
theorem Chain.nodup {nodes : List (Option Node)} {p : Option Nat}
    {cs : List (Nat × Node)} (hc : Chain nodes p cs) :
    (cs.map Prod.fst).Nodup := by
  induction hc with
  | nil => simp
  | @cons b k cs0 hb hc0 ih =>
    rw [List.map_cons, List.nodup_cons]
    refine ⟨?_, ih⟩
    intro hmem
    obtain ⟨⟨a, n⟩, hin, ha⟩ := List.mem_map.mp hmem
    simp only at ha
    subst ha
    obtain ⟨cs', h1, h2⟩ := hc0.from_mem hin
    have := h1.functional (Chain.cons hb hc0)
    subst this
    simp at h2

/-- A chain has no more cells than the store. -/
theorem Chain.length_le {nodes : List (Option Node)} {p : Option Nat}
    {cs : List (Nat × Node)} (hc : Chain nodes p cs) :
    cs.length ≤ nodes.length := by
  have hsub : (cs.map Prod.fst).toFinset ⊆ Finset.range nodes.length := by
    intro a ha
    rw [List.mem_toFinset] at ha
    obtain ⟨⟨b, n⟩, hin, hb⟩ := List.mem_map.mp ha
    simp only at hb
    subst hb
    have hl := hc.mem_live hin
    rw [Finset.mem_range]
    by_contra hge
    rw [List.getElem?_eq_none (by omega)] at hl
    cases hl
  have hcard := Finset.card_le_card hsub
  rw [List.toFinset_card_of_nodup hc.nodup, Finset.card_range, List.length_map] at hcard
  exact hcard

/-- On a live record whose chain from `head` ends in `nullptr`,
`linkedListToString` returns the rendering of the values of the chain and
leaves the memory as it was. -/
theorem linkedListToString_chain {m : Mem} {l : LinkedList} {cs : List (Nat × Node)}
    (hl : m.list = some l) (hc : Chain m.nodes l.head cs) :
    linkedListToString m = .ok (renderValues (cs.map (fun c => c.2.data)), m) := by
  have hfuel : cs.length < m.nodes.length + 1 := Nat.lt_succ_of_le hc.length_le
  simp only [linkedListToString, loadList, hl, bind_ok_eq, toStringLoop_chain hc _ _ hfuel,
    foldl_render]
  rfl

/-- With a live record whose `tail` points to a live cell, `addIntToEndOfList`
completes: the new cell is put at the end of the store, the old tail cell gets
it as `next`, and `tail` is moved to it; `head` is not written. -/
theorem addIntToEndOfList_ok {m : Mem} {l : LinkedList} {t : Nat} {n : Node} (v : Int)
    (hl : m.list = some l) (ht : l.tail = some t) (hn : m.nodes[t]? = some (some n)) :
    addIntToEndOfList m v = .ok ((),
      { nodes := (m.nodes ++ [some (Node.mk v none)]).set t
          (some { n with next := some m.nodes.length }),
        list := some { l with tail := some m.nodes.length } }) := by
  have hlt : t < m.nodes.length := by
    by_contra h
    rw [List.getElem?_eq_none (by omega)] at hn
    cases hn
  have hn' : (m.nodes ++ [some (Node.mk v none)])[t]? = some (some n) := by
    rw [List.getElem?_append_left hlt]; exact hn
  simp [addIntToEndOfList, newNode, loadList, hl, derefPtr, ht, loadNode, hn', storeNode,
    storeList, bind_ok_eq]

/-- After the two writes of `addIntToEndOfList` the chain that ended in the
cell `tail` points to runs through the same cells and ends in the new cell. -/
theorem Chain.append_cell {nodes : List (Option Node)} {p : Option Nat}
    {cs : List (Nat × Node)} (hc : Chain nodes p cs) (v : Int) :
    ∀ {t : Nat} {n : Node}, cs.getLast? = some (t, n) →
      Chain ((nodes ++ [some (Node.mk v none)]).set t
          (some { n with next := some nodes.length })) p
        (cs.dropLast ++ [(t, { n with next := some nodes.length }),
          (nodes.length, Node.mk v none)]) := by
  induction hc with
  | nil => intro t n h; simp at h
  | @cons a k cs0 ha hc0 ih =>
    intro t n hlast
    have hnd := (Chain.cons ha hc0).nodup
    have halt : a < nodes.length := by
      by_contra h
      rw [List.getElem?_eq_none (by omega)] at ha
      cases ha
    cases cs0 with
    | nil =>
      simp at hlast
      obtain ⟨rfl, rfl⟩ := hlast
      simp only [List.dropLast_single, List.nil_append]
      refine Chain.cons ?_ (Chain.cons ?_ ?_)
      · rw [List.getElem?_set_self (by simp; omega)]
      · rw [List.getElem?_set_ne (by omega), List.getElem?_append_right (le_refl _)]
        simp
      · exact Chain.nil
    | cons c cs1 =>
      rw [List.getLast?_cons_cons] at hlast
      have hmem : (t, n) ∈ c :: cs1 := List.mem_of_getLast?_eq_some hlast
      have hne : a ≠ t := by
        intro h
        subst h
        rw [List.map_cons, List.nodup_cons] at hnd
        exact hnd.1 (List.mem_map.mpr ⟨(a, n), hmem, rfl⟩)
      rw [List.dropLast_cons₂, List.cons_append]
      refine Chain.cons ?_ (ih hlast)
      rw [List.getElem?_set_ne (Ne.symm hne), List.getElem?_append_left halt]
      exact ha

/-- With a live record whose `tail` is `nullptr`, `addIntToEndOfList` faults
on `list->tail->next`. -/
theorem addIntToEndOfList_null {m : Mem} {l : LinkedList} (v : Int)
    (hl : m.list = some l) (ht : l.tail = none) :
    addIntToEndOfList m v = .error .nullDeref := by
  simp [addIntToEndOfList, newNode, loadList, hl, derefPtr, ht, bind_ok_eq, bind_error_eq]

/-- A cell of a chain whose `next` is absent is the last cell of the chain. -/
theorem Chain.last_of_next_none {nodes : List (Option Node)} {p : Option Nat}
    {cs : List (Nat × Node)} (hc : Chain nodes p cs) :
    ∀ {t : Nat} {n : Node}, (t, n) ∈ cs → n.next = none → cs.getLast? = some (t, n) := by
  induction hc with
  | nil => intro t n h; simp at h
  | @cons a k cs0 ha hc0 ih =>
    intro t n hmem hnext
    cases cs0 with
    | nil =>
      simp at hmem
      obtain ⟨rfl, rfl⟩ := hmem
      rfl
    | cons c cs1 =>
      rw [List.getLast?_cons_cons]
      rcases List.mem_cons.mp hmem with h | h
      · cases h
        rw [hnext] at hc0
        cases hc0
      · exact ih h hnext

/-- The last cell of a chain has no successor. -/
theorem Chain.next_of_last {nodes : List (Option Node)} {p : Option Nat}
    {cs : List (Nat × Node)} (hc : Chain nodes p cs) :
    ∀ {t : Nat} {n : Node}, cs.getLast? = some (t, n) → n.next = none := by
  induction hc with
  | nil => intro t n h; simp at h
  | @cons a k cs0 ha hc0 ih =>
    intro t n hlast
    cases cs0 with
    | nil =>
      simp at hlast
      obtain ⟨rfl, rfl⟩ := hlast
      exact hc0.eq_none_of_nil
    | cons c cs1 =>
      rw [List.getLast?_cons_cons] at hlast
      exact ih hlast

/-- Under the invariants of the data model, `tail` points to the last cell of
a chain that is not empty. -/
theorem DataModelInv.tail_last {m : Mem} {l : LinkedList} {cs : List (Nat × Node)}
    (h : DataModelInv m l cs) (hne : cs ≠ []) :
    ∃ t n, l.tail = some t ∧ cs.getLast? = some (t, n) := by
  obtain ⟨_, hc, _, _, htail⟩ := h
  obtain ⟨t, n, ht, hmem, hnext⟩ := htail hne
  exact ⟨t, n, ht, hc.last_of_next_none hmem hnext⟩

/-- Under the invariants of the data model on a list that is not empty,
`addIntToEndOfList` completes, keeps the invariants, leaves `head` as it was
and makes the chain one cell longer. -/
theorem DataModelInv.append_step {m : Mem} {l : LinkedList} {cs : List (Nat × Node)}
    (h : DataModelInv m l cs) (hne : cs ≠ []) (v : Int) :
    ∃ m' l' cs', addIntToEndOfList m v = .ok ((), m') ∧ DataModelInv m' l' cs' ∧
      l'.head = l.head ∧ cs'.length = cs.length + 1 := by
  obtain ⟨t, n, ht, hlast⟩ := h.tail_last hne
  obtain ⟨hl, hc, hht, hte, _⟩ := h
  have hmem : (t, n) ∈ cs := List.mem_of_getLast?_eq_some hlast
  have hlive := hc.mem_live hmem
  have hhead : l.head ≠ none := by
    intro hh
    rw [hht.mp hh] at ht
    cases ht
  refine ⟨_, { l with tail := some m.nodes.length }, _, addIntToEndOfList_ok v hl ht hlive,
    ⟨rfl, hc.append_cell v hlast, ?_, ?_, ?_⟩, rfl, ?_⟩
  · simp [hhead]
  · simp
  · intro _
    exact ⟨m.nodes.length, Node.mk v none, rfl, by simp, rfl⟩
  · have := List.length_dropLast cs
    have hpos : 0 < cs.length := List.length_pos.mpr hne
    simp only [List.length_append, List.length_dropLast, List.length_cons, List.length_nil]
    omega

/-- Along a run of appends that completes, the invariants of the data model
are kept and the chain grows by one cell for each value. -/
theorem DataModelInv.appendAll_keeps :
    ∀ (vs : List Int) {m : Mem} {l : LinkedList} {cs : List (Nat × Node)} {m' : Mem},
      DataModelInv m l cs → appendAll m vs = .ok m' →
      ∃ l' cs', DataModelInv m' l' cs' ∧ cs'.length = cs.length + vs.length := by
  intro vs
  induction vs with
  | nil =>
    intro m l cs m' h hrun
    simp only [BuggyLinkedList.appendAll] at hrun
    cases hrun
    exact ⟨l, cs, h, rfl⟩
  | cons v vs ih =>
    intro m l cs m' h hrun
    by_cases hne : cs = []
    · have ht : l.tail = none := h.2.2.2.1.mpr hne
      simp only [BuggyLinkedList.appendAll, addIntToEndOfList_null v h.1 ht, bind_error_eq] at hrun
      cases hrun
    · obtain ⟨m1, l1, cs1, hadd, h1, _, hlen⟩ := h.append_step hne v
      simp only [BuggyLinkedList.appendAll, hadd, bind_ok_eq] at hrun
      obtain ⟨l', cs', h', hlen'⟩ := ih h1 hrun
      exact ⟨l', cs', h', by simp only [List.length_cons]; omega⟩

/-! The claims -/

/-- C1 (the code departs from it): on a freshly created list, with any store of
nodes, a run of appends with at least one value does not reach
`linkedListToString`: the first `addIntToEndOfList` faults on the absent
`tail`, so no text `"[v1]->...->null"` is produced. -/
theorem C1_appends_on_fresh_list_fault (nodes : List (Option Node)) (v : Int) (vs : List Int) :
    (appendAll { nodes := nodes, list := some {} } (v :: vs) >>= linkedListToString) =
      .error .nullDeref := by
  have h : addIntToEndOfList { nodes := nodes, list := some {} } v = .error .nullDeref :=
    addIntToEndOfList_null (l := {}) v rfl rfl
  simp only [appendAll, h, bind_error_eq]

/-- C2: `linkedListToString` on a list whose `head` is absent, whatever the
store and `tail`, returns exactly `"null"`; a freshly created list is one. -/
theorem C2_toString_of_absent_head (nodes : List (Option Node)) (tail : Option Nat) :
    linkedListToString { nodes := nodes, list := some { head := none, tail := tail } } =
        .ok ("null", { nodes := nodes, list := some { head := none, tail := tail } }) ∧
      linkedListToString fresh = .ok ("null", fresh) := by
  constructor
  · exact @linkedListToString_chain _ (LinkedList.mk none tail) [] rfl Chain.nil
  · exact @linkedListToString_chain _ (LinkedList.mk none none) [] rfl Chain.nil

/-- C3 (the code departs from it): on an empty list (`head` and `tail`
absent), with any store of nodes, `addIntToEndOfList` does not complete: it
faults on the absent `tail`, and neither `head` nor `tail` is set. -/
theorem C3_append_to_empty_list_faults (nodes : List (Option Node)) (v : Int) :
    addIntToEndOfList { nodes := nodes, list := some { head := none, tail := none } } v =
      .error .nullDeref :=
  addIntToEndOfList_null v rfl rfl

/-- C4: on a list whose chain from `head` is `cs`, not empty, with `tail`
pointing to its last cell `(t, n)`, `addIntToEndOfList` completes; it
allocates one cell, at the end of the store, holding `v` with `next` absent;
the cell `t` keeps its data and gets the new cell as `next`; no other cell
changes; `tail` is set to the new cell and `head` is kept; and the chain from
`head` has exactly one cell more. -/
theorem C4_append_to_nonempty_list (m : Mem) (l : LinkedList) (cs : List (Nat × Node))
    (t : Nat) (n : Node) (v : Int)
    (hl : m.list = some l) (hc : Chain m.nodes l.head cs)
    (hlast : cs.getLast? = some (t, n)) (ht : l.tail = some t) :
    ∃ m', addIntToEndOfList m v = .ok ((), m') ∧
      m'.nodes.length = m.nodes.length + 1 ∧
      m'.nodes[m.nodes.length]? = some (some (Node.mk v none)) ∧
      m'.nodes[t]? = some (some (Node.mk n.data (some m.nodes.length))) ∧
      (∀ a, a < m.nodes.length → a ≠ t → m'.nodes[a]? = m.nodes[a]?) ∧
      m'.list = some (LinkedList.mk l.head (some m.nodes.length)) ∧
      ∃ cs', Chain m'.nodes l.head cs' ∧ cs'.length = cs.length + 1 := by
  have hmem : (t, n) ∈ cs := List.mem_of_getLast?_eq_some hlast
  have hlive := hc.mem_live hmem
  have hlt : t < m.nodes.length := by
    by_contra h
    rw [List.getElem?_eq_none (by omega)] at hlive
    cases hlive
  refine ⟨_, addIntToEndOfList_ok v hl ht hlive, ?_, ?_, ?_, ?_, rfl, _, hc.append_cell v hlast, ?_⟩
  · simp
  · simp only
    rw [List.getElem?_set_ne (by omega), List.getElem?_append_right (le_refl _)]
    simp
  · simp only
    rw [List.getElem?_set_self (by simp; omega)]
  · intro a ha hne
    simp only
    rw [List.getElem?_set_ne (Ne.symm hne), List.getElem?_append_left ha]
  · have hpos : 0 < cs.length := List.length_pos.mpr (List.ne_nil_of_mem hmem)
    simp only [List.length_append, List.length_dropLast, List.length_cons, List.length_nil]
    omega

/-- Witness of C4: appending 3 to the list `1 -> 2`. -/
theorem C4_append_to_nonempty_list_witness :
    ∃ m', addIntToEndOfList twoNodes 3 = .ok ((), m') ∧
      m'.nodes.length = twoNodes.nodes.length + 1 ∧
      m'.nodes[twoNodes.nodes.length]? = some (some (Node.mk 3 none)) ∧
      m'.nodes[1]? = some (some (Node.mk (Node.mk 2 none).data (some twoNodes.nodes.length))) ∧
      (∀ a, a < twoNodes.nodes.length → a ≠ 1 → m'.nodes[a]? = twoNodes.nodes[a]?) ∧
      m'.list = some (LinkedList.mk (LinkedList.mk (some 0) (some 1)).head
        (some twoNodes.nodes.length)) ∧
      ∃ cs', Chain m'.nodes (LinkedList.mk (some 0) (some 1)).head cs' ∧
        cs'.length = [((0 : Nat), Node.mk 1 (some 1)), (1, Node.mk 2 none)].length + 1 :=
  C4_append_to_nonempty_list twoNodes (LinkedList.mk (some 0) (some 1))
    [(0, Node.mk 1 (some 1)), (1, Node.mk 2 none)] 1 (Node.mk 2 none) 3
    rfl (Chain.cons rfl (Chain.cons rfl Chain.nil)) rfl rfl

/-- C5: in every state reached by a completed run of appends from a state
that satisfies the invariants of the data model with chain `cs0` (a freshly
created list is the case `cs0 = []`), the record is live, the chain from
`head` is finite and has one cell per element: those of `cs0` and one for each
value appended; and `head` is absent iff `tail` is absent iff the chain has no
cell.  From a freshly created list this count is the number of appends. -/
theorem C5_head_absent_iff_tail_absent_iff_empty (m0 : Mem) (l0 : LinkedList)
    (cs0 : List (Nat × Node)) (vs : List Int) (m : Mem)
    (h0 : DataModelInv m0 l0 cs0) (hrun : appendAll m0 vs = .ok m) :
    ∃ l cs, m.list = some l ∧ Chain m.nodes l.head cs ∧
      cs.length = cs0.length + vs.length ∧
      (l.head = none ↔ l.tail = none) ∧ (l.tail = none ↔ cs.length = 0) := by
  obtain ⟨l, cs, ⟨hl, hc, hht, hte, _⟩, hlen⟩ := h0.appendAll_keeps vs hrun
  exact ⟨l, cs, hl, hc, hlen, hht, hte.trans List.length_eq_zero.symm⟩

/-- Witness of C5: the list `1 -> 2` after the appends of 3 and 4. -/
theorem C5_head_absent_iff_tail_absent_iff_empty_witness :
    ∃ l cs, (Mem.mk [some (Node.mk 1 (some 1)), some (Node.mk 2 (some 2)),
        some (Node.mk 3 (some 3)), some (Node.mk 4 none)]
        (some (LinkedList.mk (some 0) (some 3)))).list = some l ∧
      Chain (Mem.mk [some (Node.mk 1 (some 1)), some (Node.mk 2 (some 2)),
        some (Node.mk 3 (some 3)), some (Node.mk 4 none)]
        (some (LinkedList.mk (some 0) (some 3)))).nodes l.head cs ∧
      cs.length = [((0 : Nat), Node.mk 1 (some 1)), (1, Node.mk 2 none)].length +
        [(3 : Int), 4].length ∧
      (l.head = none ↔ l.tail = none) ∧ (l.tail = none ↔ cs.length = 0) :=
  C5_head_absent_iff_tail_absent_iff_empty twoNodes (LinkedList.mk (some 0) (some 1))
    [(0, Node.mk 1 (some 1)), (1, Node.mk 2 none)] [3, 4] _
    ⟨rfl, Chain.cons rfl (Chain.cons rfl Chain.nil), by simp, by simp,
      fun _ => ⟨1, Node.mk 2 none, rfl, by simp, rfl⟩⟩
    rfl

/-- C6: in every state reached by a completed run of appends from a state
that satisfies the invariants of the data model (a freshly created list is
one), if the list is not empty (`head` is present) then `tail` points to a
live cell whose `next` is absent, and that cell is one of the finite chain
from `head`. -/
theorem C6_tail_is_last_and_reachable (m0 : Mem) (l0 : LinkedList)
    (cs0 : List (Nat × Node)) (vs : List Int) (m : Mem) (l : LinkedList)
    (h0 : DataModelInv m0 l0 cs0) (hrun : appendAll m0 vs = .ok m)
    (hl : m.list = some l) (hne : l.head ≠ none) :
    ∃ cs t n, Chain m.nodes l.head cs ∧ l.tail = some t ∧
      m.nodes[t]? = some (some n) ∧ n.next = none ∧ (t, n) ∈ cs := by
  obtain ⟨l', cs, ⟨hl', hc, hht, hte, htail⟩, _⟩ := h0.appendAll_keeps vs hrun
  rw [hl] at hl'
  cases hl'
  have hcs : cs ≠ [] := fun h => hne (hht.mpr (hte.mpr h))
  obtain ⟨t, n, ht, hmem, hnext⟩ := htail hcs
  exact ⟨cs, t, n, hc, ht, hc.mem_live hmem, hnext, hmem⟩

/-- Witness of C6: the list `1 -> 2` after the append of 3. -/
theorem C6_tail_is_last_and_reachable_witness :
    ∃ cs t n, Chain [some (Node.mk 1 (some 1)), some (Node.mk 2 (some 2)),
        some (Node.mk 3 none)] (some 0) cs ∧
      some 2 = some t ∧
      [some (Node.mk 1 (some 1)), some (Node.mk 2 (some 2)),
        some (Node.mk 3 none)][t]? = some (some n) ∧ n.next = none ∧ (t, n) ∈ cs :=
  C6_tail_is_last_and_reachable twoNodes (LinkedList.mk (some 0) (some 1))
    [(0, Node.mk 1 (some 1)), (1, Node.mk 2 none)] [3]
    (Mem.mk [some (Node.mk 1 (some 1)), some (Node.mk 2 (some 2)), some (Node.mk 3 none)]
      (some (LinkedList.mk (some 0) (some 2))))
    (LinkedList.mk (some 0) (some 2))
    ⟨rfl, Chain.cons rfl (Chain.cons rfl Chain.nil), by simp, by simp,
      fun _ => ⟨1, Node.mk 2 none, rfl, by simp, rfl⟩⟩
    rfl rfl (by simp)

/-- C7 (the code departs from it): the freshly created empty list satisfies
the invariants of the data model, and `addIntToEndOfList` on it, for every
value, takes the fault branch: it dereferences the absent `tail`. -/
theorem C7_append_faults_under_invariants (v : Int) :
    DataModelInv fresh (LinkedList.mk none none) [] ∧
      addIntToEndOfList fresh v = .error .nullDeref :=
  ⟨⟨rfl, Chain.nil, by simp, by simp, fun h => absurd rfl h⟩,
    addIntToEndOfList_null v rfl rfl⟩

/-- C8: on a live list record, with any store of nodes and any value,
`addIntToEndOfList` ends in the null-dereference fault if and only if `tail`
is absent on entry (a freshly created list is such a list).  And when `tail`,
if present, points to a live cell of the store, the call ends in a fault, of
whatever kind, if and only if `tail` is absent on entry: with `tail` present
it completes. -/
theorem C8_append_null_fault_iff_tail_absent (nodes : List (Option Node)) (l : LinkedList)
    (v : Int) :
    (addIntToEndOfList { nodes := nodes, list := some l } v = .error .nullDeref ↔
      l.tail = none) ∧
    ((∀ t, l.tail = some t → ∃ n, nodes[t]? = some (some n)) →
      ((∃ f, addIntToEndOfList { nodes := nodes, list := some l } v = .error f) ↔
        l.tail = none) ∧
      (l.tail ≠ none →
        ∃ m', addIntToEndOfList { nodes := nodes, list := some l } v = .ok ((), m'))) := by
  have hok : ∀ t, l.tail = some t → (∃ n, nodes[t]? = some (some n)) →
      ∃ m', addIntToEndOfList { nodes := nodes, list := some l } v = .ok ((), m') := by
    intro t ht hn
    obtain ⟨n, hn⟩ := hn
    exact ⟨_, @addIntToEndOfList_ok (Mem.mk nodes (some l)) l t n v rfl ht hn⟩
  refine ⟨?_, fun hlive => ⟨⟨?_, fun ht => ⟨_, addIntToEndOfList_null v rfl ht⟩⟩, ?_⟩⟩
  rotate_left
  · rintro ⟨f, h⟩
    cases ht : l.tail with
    | none => rfl
    | some t =>
      obtain ⟨m', hm'⟩ := hok t ht (hlive t ht)
      rw [hm'] at h
      cases h
  · intro hne
    cases ht : l.tail with
    | none => exact absurd ht hne
    | some t => exact hok t ht (hlive t ht)
  constructor
  · intro h
    cases ht : l.tail with
    | none => rfl
    | some t =>
      exfalso
      cases hn : (nodes ++ [some (Node.mk v none)])[t]? with
      | none =>
        simp [addIntToEndOfList, newNode, loadList, derefPtr, ht, loadNode, hn, bind_ok_eq,
          bind_error_eq] at h
      | some c =>
        cases c with
        | none =>
          simp [addIntToEndOfList, newNode, loadList, derefPtr, ht, loadNode, hn, bind_ok_eq,
            bind_error_eq] at h
        | some n =>
          simp [addIntToEndOfList, newNode, loadList, derefPtr, ht, loadNode, hn, storeNode,
            storeList, bind_ok_eq, bind_error_eq] at h
  · intro ht
    exact addIntToEndOfList_null v rfl ht

/-- Witness of C8: on the list `1 -> 2`, whose `tail` points to the live cell
1, the append of 3 ends in no fault and completes. -/
theorem C8_append_null_fault_iff_tail_absent_witness :
    ((∃ f, addIntToEndOfList twoNodes 3 = .error f) ↔
        (LinkedList.mk (some 0) (some 1)).tail = none) ∧
      ((LinkedList.mk (some 0) (some 1)).tail ≠ none →
        ∃ m', addIntToEndOfList twoNodes 3 = .ok ((), m')) :=
  (C8_append_null_fault_iff_tail_absent
    [some (Node.mk 1 (some 1)), some (Node.mk 2 none)] (LinkedList.mk (some 0) (some 1)) 3).2
    (by
      intro t ht
      cases ht
      exact ⟨Node.mk 2 none, rfl⟩)

/-- C9 (the code departs from it): the run of `main` writes `"BEFORE: null"`
and a line end, then stops with the null-dereference fault in the first
`addIntToEndOfList`; nothing of `"AFTER: "` is written and the list is not
released. -/
theorem C9_main_faults_after_before_line :
    main = { stdout := "BEFORE: null\n", outcome := .error .nullDeref } := by
  rfl

/-- C10: on a live list record whose chain from `head` is finite and ends in
an absent `next` (the empty chain included), `linkedListToString` returns a
string without fault, and the memory it leaves (the list record and every
cell of the store) is the memory it was given. -/
theorem C10_toString_total_and_pure (m : Mem) (l : LinkedList) (cs : List (Nat × Node))
    (hl : m.list = some l) (hc : Chain m.nodes l.head cs) :
    ∃ s, linkedListToString m = .ok (s, m) :=
  ⟨_, linkedListToString_chain hl hc⟩

/-- Witness of C10: the list `1 -> 2`. -/
theorem C10_toString_total_and_pure_witness :
    ∃ s, linkedListToString twoNodes = .ok (s, twoNodes) :=
  C10_toString_total_and_pure twoNodes (LinkedList.mk (some 0) (some 1))
    [(0, Node.mk 1 (some 1)), (1, Node.mk 2 none)] rfl
    (Chain.cons rfl (Chain.cons rfl Chain.nil))

/-! Lemmas on `freeLinkedList` -/

/-- A write to a cell that is not on a chain leaves the chain as it is. -/
theorem Chain.set_of_not_mem {nodes : List (Option Node)} {p : Option Nat}
    {cs : List (Nat × Node)} (hc : Chain nodes p cs) (a : Nat) (x : Option Node)
    (ha : a ∉ cs.map Prod.fst) : Chain (nodes.set a x) p cs := by
  induction hc with
  | nil => exact Chain.nil
  | @cons b k cs0 hb _ ih =>
    rw [List.map_cons, List.mem_cons, not_or] at ha
    refine Chain.cons ?_ (ih ha.2)
    rw [List.getElem?_set_ne ha.1]
    exact hb

theorem releaseCells_length (as : List Nat) :
    ∀ nodes : List (Option Node), (releaseCells nodes as).length = nodes.length := by
  induction as with
  | nil => intro nodes; rfl
  | cons a as ih => intro nodes; simp [releaseCells, ih]

/-- A cell that is not released keeps its content. -/
theorem releaseCells_of_not_mem (as : List Nat) :
    ∀ (nodes : List (Option Node)) (b : Nat), b ∉ as →
      (releaseCells nodes as)[b]? = nodes[b]? := by
  induction as with
  | nil => intro nodes b _; rfl
  | cons a as ih =>
    intro nodes b hb
    rw [List.mem_cons, not_or] at hb
    simp only [releaseCells]
    rw [ih _ b hb.2, List.getElem?_set_ne (Ne.symm hb.1)]

/-- A released cell of the store is dead afterwards. -/
theorem releaseCells_of_mem (as : List Nat) :
    ∀ (nodes : List (Option Node)) (b : Nat), b ∈ as → b < nodes.length →
      (releaseCells nodes as)[b]? = some none := by
  induction as with
  | nil => intro nodes b hb; simp at hb
  | cons a as ih =>
    intro nodes b hb hlt
    simp only [releaseCells]
    by_cases hmem : b ∈ as
    · exact ih _ b hmem (by simpa using hlt)
    · rcases List.mem_cons.mp hb with h | h
      · subst h
        rw [releaseCells_of_not_mem as _ b hmem, List.getElem?_set_self hlt]
      · exact absurd h hmem

/-- The loop of `freeLinkedList` on a chain: with more steps than cells it
completes, having read `next` and released each cell in traversal order. -/
theorem freeLoop_chain (cs : List (Nat × Node)) :
    ∀ (nodes : List (Option Node)) (lst : Option LinkedList) (p : Option Nat)
      (fuel : Nat) (log : List Event),
      Chain nodes p cs → cs.length < fuel →
      ∃ log', freeLoop fuel p log { nodes := nodes, list := lst } =
          .ok (log', { nodes := releaseCells nodes (cs.map Prod.fst), list := lst }) ∧
        log' ++ [Event.deleteList] = log ++ releaseLog (cs.map Prod.fst) := by
  induction cs with
  | nil =>
    intro nodes lst p fuel log hc hf
    have hp := hc.eq_none_of_nil
    subst hp
    cases fuel with
    | zero => simp at hf
    | succ k => exact ⟨log, rfl, rfl⟩
  | cons c cs0 ih =>
    intro nodes lst p fuel log hc hf
    have hnd := hc.nodup
    cases hc with
    | @cons a n _ ha hc0 =>
      cases fuel with
      | zero => simp at hf
      | succ k =>
        rw [List.map_cons, List.nodup_cons] at hnd
        have hc1 : Chain (nodes.set a none) n.next cs0 := hc0.set_of_not_mem a none hnd.1
        obtain ⟨log', hrun, hlog⟩ := ih (nodes.set a none) lst n.next k
          (log ++ [Event.readNext a, Event.deleteNode a]) hc1 (by simpa using hf)
        refine ⟨log', ?_, ?_⟩
        · simp only [freeLoop, loadNode, deleteNode, ha, bind_ok_eq]
          exact hrun
        · rw [hlog]
          simp [releaseLog]

/-- C11: on a live list record whose chain from `head` is finite and ends in
an absent `next`, `freeLinkedList` completes and its log of events is: for
each cell of the chain, in traversal order, the read of its `next` followed at
once by its release, and after all of them the release of the list record.  No
address occurs twice in the chain, so each node is released exactly once;
afterwards the list record and the cells of the chain are dead and every
other cell of the store is as before. -/
theorem C11_free_releases_each_node_once_in_order (m : Mem) (l : LinkedList)
    (cs : List (Nat × Node)) (hl : m.list = some l) (hc : Chain m.nodes l.head cs) :
    ∃ m', freeLinkedList m = .ok (releaseLog (cs.map Prod.fst), m') ∧
      (cs.map Prod.fst).Nodup ∧ m'.list = none ∧
      (∀ c ∈ cs, m'.nodes[c.1]? = some none) ∧
      (∀ a, a ∉ cs.map Prod.fst → m'.nodes[a]? = m.nodes[a]?) := by
  have hfuel : cs.length < m.nodes.length + 1 := Nat.lt_succ_of_le hc.length_le
  obtain ⟨log', hrun, hlog⟩ := freeLoop_chain cs m.nodes m.list l.head _ [] hc hfuel
  refine ⟨{ nodes := releaseCells m.nodes (cs.map Prod.fst), list := none }, ?_, hc.nodup,
    rfl, ?_, ?_⟩
  · have hm : m = { nodes := m.nodes, list := m.list } := rfl
    rw [hm]
    simp only [freeLinkedList, loadList, hl, bind_ok_eq]
    rw [← hl, hrun]
    simp only [bind_ok_eq, deleteList, hl]
    rw [hlog]
    rfl
  · intro c hmem
    have hlive := hc.mem_live (a := c.1) (n := c.2) hmem
    have hlt : c.1 < m.nodes.length := by
      by_contra h
      rw [List.getElem?_eq_none (by omega)] at hlive
      cases hlive
    exact releaseCells_of_mem _ _ _ (List.mem_map.mpr ⟨c, hmem, rfl⟩) hlt
  · intro a ha
    exact releaseCells_of_not_mem _ _ _ ha

/-- Witness of C11: the release of the list `1 -> 2`. -/
theorem C11_free_releases_each_node_once_in_order_witness :
    ∃ m', freeLinkedList twoNodes =
        .ok ([Event.readNext 0, Event.deleteNode 0, Event.readNext 1, Event.deleteNode 1,
          Event.deleteList], m') ∧
      ([((0 : Nat), Node.mk 1 (some 1)), (1, Node.mk 2 none)].map Prod.fst).Nodup ∧
      m'.list = none ∧
      (∀ c ∈ [((0 : Nat), Node.mk 1 (some 1)), (1, Node.mk 2 none)],
        m'.nodes[c.1]? = some none) ∧
      (∀ a, a ∉ [((0 : Nat), Node.mk 1 (some 1)), (1, Node.mk 2 none)].map Prod.fst →
        m'.nodes[a]? = twoNodes.nodes[a]?) :=
  C11_free_releases_each_node_once_in_order twoNodes (LinkedList.mk (some 0) (some 1))
    [(0, Node.mk 1 (some 1)), (1, Node.mk 2 none)] rfl
    (Chain.cons rfl (Chain.cons rfl Chain.nil))

/-! Lemmas on the rendered text -/

theorem string_append_right_cancel {s s' t : String} (h : s ++ t = s' ++ t) : s = s' := by
  have hd := congrArg String.data h
  rw [String.data_append, String.data_append] at hd
  exact String.ext (List.append_cancel_right hd)

/-- The rendering of a sequence extended by one value: the text before the
final `"null"` is kept and the new element is put after it. -/
theorem renderValues_snoc (v : Int) (vs : List Int) :
    ∃ b, renderValues vs = b ++ "null" ∧
      renderValues (vs ++ [v]) = b ++ "[" ++ to_string v ++ "]->null" := by
  induction vs with
  | nil =>
    refine ⟨"", rfl, ?_⟩
    simp only [List.nil_append, renderValues, String.append_assoc]
    rfl
  | cons w ws ih =>
    obtain ⟨b, h1, h2⟩ := ih
    refine ⟨"[" ++ to_string w ++ "]->" ++ b, ?_, ?_⟩
    · simp only [renderValues, h1, String.append_assoc]
    · rw [List.cons_append]
      simp only [renderValues, h2, String.append_assoc]

/-- The values of the chain after an append are the old ones and the new one. -/
theorem values_after_append {cs : List (Nat × Node)} {t : Nat} {n : Node} (k : Nat) (v : Int)
    (hlast : cs.getLast? = some (t, n)) :
    (cs.dropLast ++ [(t, Node.mk n.data (some k)), (k, Node.mk v none)]).map
        (fun c => c.2.data) = cs.map (fun c => c.2.data) ++ [v] := by
  have hcs : cs.dropLast ++ [(t, n)] = cs := List.dropLast_append_getLast? (t, n) (by simp [hlast])
  conv_rhs => rw [← hcs]
  simp

/-- C12: on a list whose chain from `head` is `cs`, not empty, with `tail`
pointing to its last cell, if `linkedListToString` returns `s ++ "null"`
before the call then `addIntToEndOfList` completes and afterwards
`linkedListToString` returns `s ++ "[" ++ to_string v ++ "]->null"`: the text
of the earlier elements is kept and the new value is put at the end. -/
theorem C12_append_extends_rendering (m : Mem) (l : LinkedList) (cs : List (Nat × Node))
    (t : Nat) (n : Node) (v : Int) (s : String)
    (hl : m.list = some l) (hc : Chain m.nodes l.head cs)
    (hlast : cs.getLast? = some (t, n)) (ht : l.tail = some t)
    (hs : linkedListToString m = .ok (s ++ "null", m)) :
    ∃ m', addIntToEndOfList m v = .ok ((), m') ∧
      linkedListToString m' = .ok (s ++ "[" ++ to_string v ++ "]->null", m') := by
  have hmem : (t, n) ∈ cs := List.mem_of_getLast?_eq_some hlast
  have hlive := hc.mem_live hmem
  refine ⟨_, addIntToEndOfList_ok v hl ht hlive, ?_⟩
  have hrender := @linkedListToString_chain
    { nodes := (m.nodes ++ [some (Node.mk v none)]).set t
        (some (Node.mk n.data (some m.nodes.length))),
      list := some (LinkedList.mk l.head (some m.nodes.length)) }
    (LinkedList.mk l.head (some m.nodes.length)) _ rfl (hc.append_cell v hlast)
  rw [hrender, values_after_append _ v hlast]
  rw [linkedListToString_chain hl hc] at hs
  obtain ⟨b, h1, h2⟩ := renderValues_snoc v (cs.map (fun c => c.2.data))
  have hsb : b = s := by
    have h3 : b ++ "null" = s ++ "null" := by
      rw [← h1]
      exact congrArg Prod.fst (Except.ok.inj hs)
    exact string_append_right_cancel h3
  rw [h2, hsb]

/-- Witness of C12: the list `1 -> 2` renders as `"[1]->[2]->null"`, and after
the append of 3 as `"[1]->[2]->[3]->null"`. -/
theorem C12_append_extends_rendering_witness :
    ∃ m', addIntToEndOfList twoNodes 3 = .ok ((), m') ∧
      linkedListToString m' = .ok ("[1]->[2]->" ++ "[" ++ to_string 3 ++ "]->null", m') :=
  C12_append_extends_rendering twoNodes (LinkedList.mk (some 0) (some 1))
    [(0, Node.mk 1 (some 1)), (1, Node.mk 2 none)] 1 (Node.mk 2 none) 3 "[1]->[2]->"
    rfl (Chain.cons rfl (Chain.cons rfl Chain.nil)) rfl rfl (by decide)

/-! Lemmas on `head` -/

/-- A call of `addIntToEndOfList` that completes leaves the list record live
with the `head` it had. -/
theorem addIntToEndOfList_head {m m' : Mem} {l : LinkedList} {v : Int}
    (hl : m.list = some l) (h : addIntToEndOfList m v = .ok ((), m')) :
    ∃ l', m'.list = some l' ∧ l'.head = l.head := by
  cases ht : l.tail with
  | none =>
    rw [addIntToEndOfList_null v hl ht] at h
    cases h
  | some t =>
    cases hn : (m.nodes ++ [some (Node.mk v none)])[t]? with
    | none =>
      simp [addIntToEndOfList, newNode, loadList, hl, derefPtr, ht, loadNode, hn, bind_ok_eq,
        bind_error_eq] at h
    | some c =>
      cases c with
      | none =>
        simp [addIntToEndOfList, newNode, loadList, hl, derefPtr, ht, loadNode, hn, bind_ok_eq,
          bind_error_eq] at h
      | some n =>
        simp [addIntToEndOfList, newNode, loadList, hl, derefPtr, ht, loadNode, hn, storeNode,
          storeList, bind_ok_eq, bind_error_eq] at h
        subst h
        exact ⟨_, rfl, rfl⟩

/-- A run of appends that completes leaves the list record live with the
`head` it had. -/
theorem appendAll_head (vs : List Int) :
    ∀ {m m' : Mem} {l : LinkedList}, m.list = some l → appendAll m vs = .ok m' →
      ∃ l', m'.list = some l' ∧ l'.head = l.head := by
  induction vs with
  | nil =>
    intro m m' l hl h
    simp only [appendAll] at h
    cases h
    exact ⟨l, hl, rfl⟩
  | cons v vs ih =>
    intro m m' l hl h
    cases hadd : addIntToEndOfList m v with
    | error e =>
      simp only [appendAll, hadd, bind_error_eq] at h
      cases h
    | ok r =>
      obtain ⟨u, m1⟩ := r
      simp only [appendAll, hadd, bind_ok_eq] at h
      obtain ⟨l1, hl1, hh1⟩ := addIntToEndOfList_head hl hadd
      obtain ⟨l', hl', hh'⟩ := ih hl1 h
      exact ⟨l', hl', hh'.trans hh1⟩

/-- C13: on a live list record, a call of `addIntToEndOfList` that completes
leaves `head` as it was; hence after any run of appends that completes `head`
is still what it was, and if it was absent the list still renders as
`"null"`. -/
theorem C13_append_never_writes_head (m : Mem) (l : LinkedList) (hl : m.list = some l) :
    (∀ v m1, addIntToEndOfList m v = .ok ((), m1) →
      ∃ l1, m1.list = some l1 ∧ l1.head = l.head) ∧
    (∀ vs m', appendAll m vs = .ok m' →
      ∃ l', m'.list = some l' ∧ l'.head = l.head ∧
        (l.head = none → linkedListToString m' = .ok ("null", m'))) := by
  refine ⟨fun v m1 h => addIntToEndOfList_head hl h, ?_⟩
  intro vs m' h
  obtain ⟨l', hl', hh⟩ := appendAll_head vs hl h
  refine ⟨l', hl', hh, ?_⟩
  intro hnone
  have hc : Chain m'.nodes l'.head [] := by
    rw [hh, hnone]
    exact Chain.nil
  exact linkedListToString_chain hl' hc

/-- Witness of C13: a record with `head` absent and `tail` on a live cell;
the appends of 7 and 8 complete, `head` stays absent and the text is
`"null"`. -/
theorem C13_append_never_writes_head_witness :
    ∃ l', (Mem.mk [some (Node.mk 5 (some 1)), some (Node.mk 7 (some 2)), some (Node.mk 8 none)]
        (some (LinkedList.mk none (some 2)))).list = some l' ∧
      l'.head = (LinkedList.mk none (some 0)).head ∧
      ((LinkedList.mk none (some 0)).head = none →
        linkedListToString (Mem.mk [some (Node.mk 5 (some 1)), some (Node.mk 7 (some 2)),
          some (Node.mk 8 none)] (some (LinkedList.mk none (some 2)))) =
          .ok ("null", Mem.mk [some (Node.mk 5 (some 1)), some (Node.mk 7 (some 2)),
            some (Node.mk 8 none)] (some (LinkedList.mk none (some 2))))) :=
  (C13_append_never_writes_head (Mem.mk [some (Node.mk 5 none)]
    (some (LinkedList.mk none (some 0)))) (LinkedList.mk none (some 0)) rfl).2 [7, 8] _ rfl

/-! Lemmas on the decimal text of an integer -/

theorem digitChar_spec (k : Nat) (hk : k < 10) :
    digitValue (Nat.digitChar k) = k ∧ (Nat.digitChar k).isDigit = true := by
  interval_cases k <;> decide

theorem toDigitsCore_acc (fuel : Nat) :
    ∀ (n : Nat) (ds : List Char),
      Nat.toDigitsCore 10 fuel n ds = Nat.toDigitsCore 10 fuel n [] ++ ds := by
  induction fuel with
  | zero => intro n ds; simp [Nat.toDigitsCore]
  | succ f ih =>
    intro n ds
    simp only [Nat.toDigitsCore]
    by_cases h : n / 10 = 0
    · simp [h]
    · simp only [h, if_false]
      rw [ih (n / 10) (Nat.digitChar (n % 10) :: ds), ih (n / 10) [Nat.digitChar (n % 10)]]
      simp

theorem decimalValue_snoc (ds : List Char) (c : Char) :
    decimalValue (ds ++ [c]) = 10 * decimalValue ds + digitValue c := by
  simp [decimalValue, List.foldl_append]

/-- The digits written for a number: there is at least one, all are decimal
digits, and they read back as the number. -/
theorem toDigitsCore_spec (fuel : Nat) :
    ∀ n : Nat, n < fuel →
      Nat.toDigitsCore 10 fuel n [] ≠ [] ∧
      (∀ c ∈ Nat.toDigitsCore 10 fuel n [], c.isDigit = true) ∧
      decimalValue (Nat.toDigitsCore 10 fuel n []) = n := by
  induction fuel with
  | zero => intro n h; omega
  | succ f ih =>
    intro n hn
    have hmod : n % 10 < 10 := Nat.mod_lt _ (by decide)
    obtain ⟨hval, hdig⟩ := digitChar_spec (n % 10) hmod
    simp only [Nat.toDigitsCore]
    by_cases h : n / 10 = 0
    · simp only [h, if_true]
      refine ⟨by simp, ?_, ?_⟩
      · intro c hc
        rw [List.mem_singleton] at hc
        rw [hc]; exact hdig
      · have : decimalValue [Nat.digitChar (n % 10)] = digitValue (Nat.digitChar (n % 10)) := by
          simp [decimalValue]
        rw [this, hval]
        omega
    · simp only [h, if_false]
      rw [toDigitsCore_acc f (n / 10) [Nat.digitChar (n % 10)]]
      obtain ⟨_, hall, hdec⟩ := ih (n / 10) (by omega)
      refine ⟨by simp, ?_, ?_⟩
      · intro c hc
        rcases List.mem_append.mp hc with hc | hc
        · exact hall c hc
        · rw [List.mem_singleton] at hc
          rw [hc]; exact hdig
      · rw [decimalValue_snoc, hdec, hval]
        omega

theorem toDigits_spec (n : Nat) :
    Nat.toDigits 10 n ≠ [] ∧ (∀ c ∈ Nat.toDigits 10 n, c.isDigit = true) ∧
      decimalValue (Nat.toDigits 10 n) = n :=
  toDigitsCore_spec (n + 1) n (Nat.lt_succ_self n)

theorem to_string_ofNat_data (n : Nat) :
    (to_string (Int.ofNat n)).data = Nat.toDigits 10 n := rfl

theorem to_string_negSucc_data (n : Nat) :
    (to_string (Int.negSucc n)).data = '-' :: Nat.toDigits 10 (n + 1) := rfl

/-- The text of `to_string` has no closing bracket. -/
theorem to_string_no_bracket (v : Int) : ']' ∉ (to_string v).data := by
  have hd : ∀ n : Nat, ']' ∉ Nat.toDigits 10 n := by
    intro n hmem
    exact absurd ((toDigits_spec n).2.1 _ hmem) (by decide)
  cases v with
  | ofNat n => rw [to_string_ofNat_data]; exact hd n
  | negSucc n =>
    rw [to_string_negSucc_data, List.mem_cons, not_or]
    exact ⟨by decide, hd (n + 1)⟩

/-- The text of `to_string` reads back as the integer. -/
theorem parseInt_to_string (v : Int) : parseInt (to_string v).data = v := by
  cases v with
  | ofNat n =>
    rw [to_string_ofNat_data]
    obtain ⟨hne, hall, hdec⟩ := toDigits_spec n
    cases hds : Nat.toDigits 10 n with
    | nil => exact absurd hds hne
    | cons c ds =>
      have hc : c ≠ '-' := by
        intro hc
        have := hall c (by rw [hds]; exact List.mem_cons_self _ _)
        rw [hc] at this
        exact absurd this (by decide)
      rw [hds] at hdec
      unfold parseInt
      split
      · rename_i heq
        exact absurd (List.cons.inj heq).1 hc
      · rw [hdec]; rfl
  | negSucc n =>
    rw [to_string_negSucc_data]
    simp only [parseInt, (toDigits_spec (n + 1)).2.2]
    rfl

theorem to_string_injective {v w : Int} (h : to_string v = to_string w) : v = w := by
  rw [← parseInt_to_string v, ← parseInt_to_string w, h]

/-- Two texts without closing bracket, each followed by a closing bracket and
a rest, are equal as wholes only if the texts and the rests are equal. -/
theorem split_at_bracket :
    ∀ (a b x y : List Char), ']' ∉ a → ']' ∉ b → a ++ ']' :: x = b ++ ']' :: y →
      a = b ∧ x = y := by
  intro a
  induction a with
  | nil =>
    intro b x y _ hb h
    cases b with
    | nil => exact ⟨rfl, (List.cons.inj h).2⟩
    | cons c b =>
      have hc := (List.cons.inj h).1
      exact absurd (hc ▸ List.mem_cons_self _ _) hb
  | cons d a ih =>
    intro b x y ha hb h
    cases b with
    | nil =>
      have hd := (List.cons.inj h).1
      exact absurd (hd ▸ List.mem_cons_self _ _) ha
    | cons c b =>
      obtain ⟨hdc, hrest⟩ := List.cons.inj h
      obtain ⟨hab, hxy⟩ := ih b x y (fun hm => ha (List.mem_cons_of_mem _ hm))
        (fun hm => hb (List.mem_cons_of_mem _ hm)) hrest
      exact ⟨by rw [hdc, hab], hxy⟩

theorem renderValues_cons_data (v : Int) (vs : List Int) :
    (renderValues (v :: vs)).data =
      '[' :: ((to_string v).data ++ ']' :: '-' :: '>' :: (renderValues vs).data) := by
  simp only [renderValues, String.data_append]
  simp

/-- The rendering determines the sequence of values. -/
theorem renderValues_injective :
    ∀ vs ws : List Int, renderValues vs = renderValues ws → vs = ws := by
  intro vs
  induction vs with
  | nil =>
    intro ws h
    cases ws with
    | nil => rfl
    | cons w ws =>
      have hd := congrArg String.data h
      rw [renderValues_cons_data] at hd
      exact absurd (List.cons.inj hd).1 (by decide)
  | cons v vs ih =>
    intro ws h
    cases ws with
    | nil =>
      have hd := congrArg String.data h
      rw [renderValues_cons_data] at hd
      exact absurd (List.cons.inj hd).1 (by decide)
    | cons w ws =>
      have hd := congrArg String.data h
      rw [renderValues_cons_data, renderValues_cons_data] at hd
      obtain ⟨hvw, hrest⟩ := split_at_bracket _ _ _ _ (to_string_no_bracket v)
        (to_string_no_bracket w) (List.cons.inj hd).2
      have h1 : v = w := to_string_injective (String.ext hvw)
      have h2 : (renderValues vs).data = (renderValues ws).data :=
        (List.cons.inj (List.cons.inj hrest).2).2
      rw [h1, ih ws (String.ext h2)]

/-- C14: for two live list records whose chains from `head` are finite,
`linkedListToString` returns a string on each, and the two strings are equal
if and only if the sequences of values of the two chains, in traversal order,
are equal: sequences that differ, in length or in an element, give strings
that differ. -/
theorem C14_toString_injective_on_values (m1 m2 : Mem) (l1 l2 : LinkedList)
    (cs1 cs2 : List (Nat × Node))
    (hl1 : m1.list = some l1) (hc1 : Chain m1.nodes l1.head cs1)
    (hl2 : m2.list = some l2) (hc2 : Chain m2.nodes l2.head cs2) :
    ∃ s1 s2, linkedListToString m1 = .ok (s1, m1) ∧ linkedListToString m2 = .ok (s2, m2) ∧
      (s1 = s2 ↔ cs1.map (fun c => c.2.data) = cs2.map (fun c => c.2.data)) :=
  ⟨_, _, linkedListToString_chain hl1 hc1, linkedListToString_chain hl2 hc2,
    renderValues_injective _ _, fun h => by rw [h]⟩

/-- Witness of C14: the list `1 -> 2` and the list of the single value 12. -/
theorem C14_toString_injective_on_values_witness :
    ∃ s1 s2, linkedListToString twoNodes = .ok (s1, twoNodes) ∧
      linkedListToString (Mem.mk [some (Node.mk 12 none)]
          (some (LinkedList.mk (some 0) (some 0)))) =
        .ok (s2, Mem.mk [some (Node.mk 12 none)] (some (LinkedList.mk (some 0) (some 0)))) ∧
      (s1 = s2 ↔ [((0 : Nat), Node.mk 1 (some 1)), (1, Node.mk 2 none)].map (fun c => c.2.data) =
        [((0 : Nat), Node.mk 12 none)].map (fun c => c.2.data)) :=
  C14_toString_injective_on_values twoNodes
    (Mem.mk [some (Node.mk 12 none)] (some (LinkedList.mk (some 0) (some 0))))
    (LinkedList.mk (some 0) (some 1)) (LinkedList.mk (some 0) (some 0))
    [(0, Node.mk 1 (some 1)), (1, Node.mk 2 none)] [(0, Node.mk 12 none)]
    rfl (Chain.cons rfl (Chain.cons rfl Chain.nil)) rfl (Chain.cons rfl Chain.nil)

end BuggyLinkedList
